import Mathlib

/-!
Shallow embedding of the Alpha Miner discovery core of this repository
(`Task2.py`, class `AlphaAlgorithm`, mirrored verbatim in `Task3.py`),
together with proofs of the specified properties.

Activities are strings, a trace is a list of activities, an event log is a
list of traces, exactly as in the Python source.  The four footprint
relations `"->"`, `"<-"`, `"||"`, `"#"` become the inductive type `Rel`.
Possible runtime exceptions of `discover` (an `IndexError` from `trace[0]` /
`trace[-1]` on a zero-length trace) are modelled with `Except`.
-/

namespace AlphaMiner

/-- A trace: one ordered execution, a list of activity identifiers. -/
abbrev Trace := List String

/-- An event log: the list of recorded traces (`event_log` in the source). -/
abbrev EventLog := List Trace

/-- The four footprint relations of `_build_footprint_matrix`:
`causality` is `"->"`, `invCausality` is `"<-"`, `parallel` is `"||"`,
`choice` is `"#"`. -/
inductive Rel : Type
  | causality
  | invCausality
  | parallel
  | choice
deriving DecidableEq

/-- Directly-follows observation: `b` occurs immediately after `a` in some
trace of the log.  This is the content of the `direct_succession` map of
`_build_footprint_matrix` (`b ∈ direct_succession[a]`). -/
def directlyFollows (log : EventLog) (a b : String) : Bool :=
  log.any fun t => (t.zip t.tail).any fun q => q.1 == a && q.2 == b

/-- The deduplicated list of all activities of the log, modelling the Python
set `activities` built by `_build_footprint_matrix` (also `T` in `discover`). -/
def alphabetList (log : EventLog) : List String :=
  log.flatten.dedup

/-- The activity alphabet of the log as a finite set. -/
def alphabet (log : EventLog) : Finset String :=
  log.flatten.toFinset

/-- The relation `_build_footprint_matrix` assigns to the ordered pair
`(a, b)`: parallel when each directly follows the other, causality when only
`b` follows `a`, inverse causality when only `a` follows `b`, choice when
neither direction was observed. -/
def footprint (log : EventLog) (a b : String) : Rel :=
  if directlyFollows log a b then
    if directlyFollows log b a then Rel.parallel else Rel.causality
  else
    if directlyFollows log b a then Rel.invCausality else Rel.choice

/-- The footprint matrix as built by the nested loops of
`_build_footprint_matrix`: one entry `(a1, a2, relation)` for every ordered
pair of alphabet activities. -/
def buildFootprintMatrix (log : EventLog) : List (String × String × Rel) :=
  (alphabetList log).flatMap fun a1 =>
    (alphabetList log).map fun a2 => (a1, a2, footprint log a1 a2)

lemma alphabetList_toFinset (log : EventLog) :
    (alphabetList log).toFinset = alphabet log := by
  apply Finset.ext
  intro x
  simp [alphabetList, alphabet, List.mem_toFinset, List.mem_dedup]

lemma mem_alphabetList {log : EventLog} {a : String} :
    a ∈ alphabetList log ↔ a ∈ alphabet log := by
  rw [← alphabetList_toFinset, List.mem_toFinset]

lemma mem_buildFootprintMatrix {log : EventLog} {a b : String} {r : Rel} :
    (a, b, r) ∈ buildFootprintMatrix log ↔
      a ∈ alphabet log ∧ b ∈ alphabet log ∧ r = footprint log a b := by
  unfold buildFootprintMatrix
  simp only [List.mem_flatMap, List.mem_map, Prod.mk.injEq]
  constructor
  · rintro ⟨a1, ha1, a2, ha2, rfl, rfl, rfl⟩
    exact ⟨mem_alphabetList.mp ha1, mem_alphabetList.mp ha2, rfl⟩
  · rintro ⟨ha, hb, rfl⟩
    exact ⟨a, mem_alphabetList.mpr ha, b, mem_alphabetList.mpr hb, rfl, rfl, rfl⟩

/-- Claim C2: the footprint matrix assigns exactly one relation to every
ordered pair of alphabet activities, the assigned relation is the one
computed by the classification rule, and the direction-consistency invariant
holds: `relation(a,b) = CAUSALITY` iff `relation(b,a) = INVERSE_CAUSALITY`,
`relation(a,b) = PARALLEL` iff `relation(b,a) = PARALLEL`, and
`relation(a,b) = CHOICE` iff `relation(b,a) = CHOICE`. -/
theorem footprint_total_and_direction_consistent (log : EventLog) (a b : String)
    (ha : a ∈ alphabet log) (hb : b ∈ alphabet log) :
    (∃! r : Rel, (a, b, r) ∈ buildFootprintMatrix log) ∧
    (a, b, footprint log a b) ∈ buildFootprintMatrix log ∧
    (footprint log a b = Rel.causality ↔ footprint log b a = Rel.invCausality) ∧
    (footprint log a b = Rel.parallel ↔ footprint log b a = Rel.parallel) ∧
    (footprint log a b = Rel.choice ↔ footprint log b a = Rel.choice) := by
  refine ⟨⟨footprint log a b, mem_buildFootprintMatrix.mpr ⟨ha, hb, rfl⟩, ?_⟩,
    mem_buildFootprintMatrix.mpr ⟨ha, hb, rfl⟩, ?_, ?_, ?_⟩ <;>
    try (intro r hr; exact (mem_buildFootprintMatrix.mp hr).2.2)
  all_goals
    cases hab : directlyFollows log a b <;> cases hba : directlyFollows log b a <;>
      simp [footprint, hab, hba]

/-- Witness for claim C2 at the concrete log `[["a", "b"]]`. -/
theorem footprint_total_and_direction_consistent_witness :
    (∃! r : Rel, ("a", "b", r) ∈ buildFootprintMatrix [["a", "b"]]) ∧
    ("a", "b", footprint [["a", "b"]] "a" "b") ∈ buildFootprintMatrix [["a", "b"]] ∧
    (footprint [["a", "b"]] "a" "b" = Rel.causality ↔
      footprint [["a", "b"]] "b" "a" = Rel.invCausality) ∧
    (footprint [["a", "b"]] "a" "b" = Rel.parallel ↔
      footprint [["a", "b"]] "b" "a" = Rel.parallel) ∧
    (footprint [["a", "b"]] "a" "b" = Rel.choice ↔
      footprint [["a", "b"]] "b" "a" = Rel.choice) :=
  footprint_total_and_direction_consistent [["a", "b"]] "a" "b"
    (by decide) (by decide)

/-- Claim C8: a self-pair follows the same classification rule as distinct
pairs: an activity observed to directly follow itself is `PARALLEL`,
otherwise it is `CHOICE`; in particular a length-one loop is never
classified `CAUSALITY`. -/
theorem footprint_self_rule (log : EventLog) (a : String) :
    footprint log a a =
      (if directlyFollows log a a then Rel.parallel else Rel.choice) ∧
    footprint log a a ≠ Rel.causality := by
  cases h : directlyFollows log a a <;> simp [footprint, h]

/-- The three structural conditions tested by `_check_conditions`: all pairs
within `A` are choice, all pairs within `B` are choice, and every pair from
`A` to `B` is causality. -/
def checkConditions (log : EventLog) (A B : Finset String) : Prop :=
  (∀ a1 ∈ A, ∀ a2 ∈ A, footprint log a1 a2 = Rel.choice) ∧
  (∀ b1 ∈ B, ∀ b2 ∈ B, footprint log b1 b2 = Rel.choice) ∧
  (∀ a ∈ A, ∀ b ∈ B, footprint log a b = Rel.causality)

instance (log : EventLog) (A B : Finset String) :
    Decidable (checkConditions log A B) := by
  unfold checkConditions
  infer_instance

/-- Step 4 of `discover`: the candidate set `X`, built by enumerating every
pair of subset sizes from `1` to `n` and every pair of subsets of those
sizes, keeping the pairs that pass `_check_conditions`. -/
def bigX (log : EventLog) : Finset (Finset String × Finset String) :=
  (Finset.range (alphabet log).card).biUnion fun sa =>
    (Finset.range (alphabet log).card).biUnion fun sb =>
      (((alphabet log).powersetCard (sa + 1)) ×ˢ
          ((alphabet log).powersetCard (sb + 1))).filter
        fun q => checkConditions log q.1 q.2

lemma mem_bigX {log : EventLog} {p : Finset String × Finset String} :
    p ∈ bigX log ↔
      p.1.Nonempty ∧ p.2.Nonempty ∧ p.1 ⊆ alphabet log ∧ p.2 ⊆ alphabet log ∧
        checkConditions log p.1 p.2 := by
  unfold bigX
  simp only [Finset.mem_biUnion, Finset.mem_filter, Finset.mem_product,
    Finset.mem_powersetCard, Finset.mem_range]
  constructor
  · rintro ⟨sa, hsa, sb, hsb, ⟨⟨hA, hcA⟩, hB, hcB⟩, hc⟩
    refine ⟨Finset.card_pos.mp ?_, Finset.card_pos.mp ?_, hA, hB, hc⟩
    · rw [hcA]; exact Nat.succ_pos sa
    · rw [hcB]; exact Nat.succ_pos sb
  · rintro ⟨h1, h2, hA, hB, hc⟩
    have hc1 : 1 ≤ p.1.card := Finset.card_pos.mpr h1
    have hc2 : 1 ≤ p.2.card := Finset.card_pos.mpr h2
    have hl1 : p.1.card ≤ (alphabet log).card := Finset.card_le_card hA
    have hl2 : p.2.card ≤ (alphabet log).card := Finset.card_le_card hB
    refine ⟨p.1.card - 1, by omega, p.2.card - 1, by omega,
      ⟨⟨hA, by omega⟩, hB, by omega⟩, hc⟩

/-- Claim C1: a pair `(A, B)` is in the candidate set `X` exactly when `A`
and `B` are non-empty subsets of the alphabet such that, reconstructed from
the footprint matrix, every pair within `A` is `CHOICE`, every pair within
`B` is `CHOICE`, and every pair from `A` to `B` is `CAUSALITY`. -/
theorem bigX_mem_iff_conditions (log : EventLog) (A B : Finset String) :
    (A, B) ∈ bigX log ↔
      A.Nonempty ∧ B.Nonempty ∧ A ⊆ alphabet log ∧ B ⊆ alphabet log ∧
      (∀ a1 ∈ A, ∀ a2 ∈ A, footprint log a1 a2 = Rel.choice) ∧
      (∀ b1 ∈ B, ∀ b2 ∈ B, footprint log b1 b2 = Rel.choice) ∧
      (∀ a ∈ A, ∀ b ∈ B, footprint log a b = Rel.causality) := by
  rw [mem_bigX]
  unfold checkConditions
  tauto

/-- Claim C10: the two components of any pair accepted into `X` are
disjoint: a shared activity would need its self-relation to be both
`CHOICE` and `CAUSALITY` at once. -/
theorem bigX_disjoint (log : EventLog) (p : Finset String × Finset String)
    (hp : p ∈ bigX log) : Disjoint p.1 p.2 := by
  rw [Finset.disjoint_left]
  intro a ha1 ha2
  obtain ⟨-, -, -, -, hc⟩ := mem_bigX.mp hp
  have h1 := hc.1 a ha1 a ha1
  have h2 := hc.2.2 a ha1 a ha2
  rw [h1] at h2
  exact Rel.noConfusion h2

/-- Witness for claim C10: the concrete pair `({a}, {b})` is in the
candidate set of the log `[["a", "b"]]` and its components are disjoint. -/
theorem bigX_disjoint_witness :
    (({"a"}, ({"b"} : Finset String)) ∈ bigX [["a", "b"]]) ∧
      Disjoint ({"a"} : Finset String) {"b"} :=
  ⟨by decide, bigX_disjoint [["a", "b"]] ({"a"}, {"b"}) (by decide)⟩

/-- Step 5 of `discover`: `_find_maximal_pairs` keeps a pair exactly when no
other distinct pair of `X` dominates it in both components. -/
def findMaximalPairs (X : Finset (Finset String × Finset String)) :
    Finset (Finset String × Finset String) :=
  X.filter fun p => ∀ q ∈ X, q ≠ p → ¬(p.1 ⊆ q.1 ∧ p.2 ⊆ q.2)

/-- The set `Y` (called `YL` in the source) of maximal pairs of the log. -/
def YL (log : EventLog) : Finset (Finset String × Finset String) :=
  findMaximalPairs (bigX log)

/-- Claim C3: `_find_maximal_pairs` returns a subset of `X`; a pair is
retained exactly when no other distinct pair of `X` dominates it
componentwise; and no two distinct retained pairs dominate each other. -/
theorem findMaximalPairs_spec (X : Finset (Finset String × Finset String)) :
    findMaximalPairs X ⊆ X ∧
    (∀ p, p ∈ findMaximalPairs X ↔
      p ∈ X ∧ ¬∃ q ∈ X, q ≠ p ∧ p.1 ⊆ q.1 ∧ p.2 ⊆ q.2) ∧
    (∀ p ∈ findMaximalPairs X, ∀ q ∈ findMaximalPairs X, p ≠ q →
      ¬(p.1 ⊆ q.1 ∧ p.2 ⊆ q.2)) := by
  refine ⟨Finset.filter_subset _ _, ?_, ?_⟩
  · intro p
    simp only [findMaximalPairs, Finset.mem_filter]
    constructor
    · rintro ⟨hp, hmax⟩
      refine ⟨hp, ?_⟩
      rintro ⟨q, hq, hne, hsub⟩
      exact hmax q hq hne hsub
    · rintro ⟨hp, hmax⟩
      exact ⟨hp, fun q hq hne hsub => hmax ⟨q, hq, hne, hsub⟩⟩
  · intro p hp q hq hne
    simp only [findMaximalPairs, Finset.mem_filter] at hp hq
    exact hp.2 q hq.1 (Ne.symm hne)

/-- A concrete candidate set used to witness claim C3. -/
def xSample : Finset (Finset String × Finset String) :=
  {({"a"}, {"b"}), ({"c"}, {"d"})}

/-- Witness for claim C3: in the two-element candidate set `xSample` both
pairs are maximal, and the antichain property holds for the two of them. -/
theorem findMaximalPairs_spec_witness :
    (({"a"}, ({"b"} : Finset String)) ∈ findMaximalPairs xSample) ∧
      ¬(({"a"} : Finset String) ⊆ {"c"} ∧ ({"b"} : Finset String) ⊆ {"d"}) :=
  ⟨by decide,
    (findMaximalPairs_spec xSample).2.2 ({"a"}, {"b"}) (by decide)
      ({"c"}, {"d"}) (by decide) (by decide)⟩

/-- Decimal digit list of a natural number, most significant digit first;
this is what the core printer behind string interpolation produces.  It is
used to reason about the place names `p_<i>` of step 6 of `discover`. -/
def decChars (n : Nat) : List Char :=
  if _h : n < 10 then [Nat.digitChar n]
  else decChars (n / 10) ++ [Nat.digitChar (n % 10)]
termination_by n
decreasing_by omega

lemma decChars_ge {n : Nat} (h : 10 ≤ n) :
    decChars n = decChars (n / 10) ++ [Nat.digitChar (n % 10)] := by
  conv_lhs => rw [decChars.eq_def]
  rw [dif_neg (by omega : ¬ n < 10)]

lemma decChars_ne_nil (n : Nat) : decChars n ≠ [] := by
  unfold decChars
  split <;> simp

lemma digitChar_inj_below_ten :
    ∀ d < 10, ∀ e < 10, Nat.digitChar d = Nat.digitChar e → d = e := by
  decide

lemma decChars_injective : Function.Injective decChars := by
  intro m
  induction m using Nat.strong_induction_on with
  | _ m ih =>
    intro n h
    by_cases hm : m < 10 <;> by_cases hn : n < 10
    · unfold decChars at h
      rw [dif_pos hm, dif_pos hn] at h
      injection h with h1 _
      exact digitChar_inj_below_ten m hm n hn h1
    · unfold decChars at h
      rw [dif_pos hm, dif_neg hn] at h
      have hl := congrArg List.length h
      simp only [List.length_append, List.length_cons, List.length_nil] at hl
      have := List.length_pos.mpr (decChars_ne_nil (n / 10))
      omega
    · unfold decChars at h
      rw [dif_neg hm, dif_pos hn] at h
      have hl := congrArg List.length h
      simp only [List.length_append, List.length_cons, List.length_nil] at hl
      have := List.length_pos.mpr (decChars_ne_nil (m / 10))
      omega
    · unfold decChars at h
      rw [dif_neg hm, dif_neg hn] at h
      obtain ⟨h1, h2⟩ := List.append_inj' h rfl
      have hdiv : m / 10 = n / 10 :=
        ih (m / 10) (by omega) h1
      injection h2 with h3 _
      have hmod : m % 10 = n % 10 :=
        digitChar_inj_below_ten (m % 10) (by omega) (n % 10) (by omega) h3
      omega

lemma toDigitsCore_eq_decChars :
    ∀ (f n : Nat), n < 10 ^ f → 0 < f → ∀ (l : List Char),
      Nat.toDigitsCore 10 f n l = decChars n ++ l := by
  intro f
  induction f with
  | zero => omega
  | succ f ih =>
    intro n hn _ l
    simp only [Nat.toDigitsCore]
    by_cases h0 : n / 10 = 0
    · rw [if_pos h0]
      have hn10 : n < 10 := by omega
      unfold decChars
      rw [dif_pos hn10, Nat.mod_eq_of_lt hn10]
      rfl
    · rw [if_neg h0]
      have hf : 0 < f := by
        rcases Nat.eq_zero_or_pos f with rfl | h
        · rw [pow_one] at hn; omega
        · exact h
      have hlt : n / 10 < 10 ^ f := by
        have : n < 10 ^ f * 10 := by rw [← pow_succ]; exact hn
        omega
      conv_rhs => rw [decChars_ge (by omega : 10 ≤ n)]
      rw [ih (n / 10) hlt hf, List.append_assoc]
      rfl

lemma repr_data_eq_decChars (n : Nat) : (Nat.repr n).data = decChars n := by
  show (Nat.toDigits 10 n).asString.data = decChars n
  rw [Nat.toDigits, toDigitsCore_eq_decChars (n + 1) n ?_ (by omega) []]
  · rw [List.append_nil]
    rfl
  · calc n < 10 ^ n := Nat.lt_pow_self (by omega) n
      _ ≤ 10 ^ (n + 1) := Nat.pow_le_pow_right (by omega) (Nat.le_succ n)

lemma nat_repr_injective : Function.Injective Nat.repr := by
  intro m n h
  apply decChars_injective
  rw [← repr_data_eq_decChars, ← repr_data_eq_decChars, h]

/-- The name of the `i`-th internal place created by step 6 of `discover`
(`f"p_{i}"` in the source). -/
def placeName (i : Nat) : String :=
  "p_" ++ Nat.repr i

lemma placeName_data (i : Nat) :
    (placeName i).data = 'p' :: '_' :: (Nat.repr i).data := rfl

lemma placeName_injective : Function.Injective placeName := by
  intro i j h
  have hd := congrArg String.data h
  rw [placeName_data, placeName_data] at hd
  injection hd with _ hd
  injection hd with _ hd
  exact nat_repr_injective (String.ext hd)

lemma placeName_ne_start (i : Nat) : placeName i ≠ "start" := by
  intro h
  have hd := congrArg String.data h
  rw [placeName_data, show ("start").data = ['s', 't', 'a', 'r', 't'] from rfl] at hd
  injection hd with h1 _
  exact absurd h1 (by decide)

lemma placeName_ne_end (i : Nat) : placeName i ≠ "end" := by
  intro h
  have hd := congrArg String.data h
  rw [placeName_data, show ("end").data = ['e', 'n', 'd'] from rfl] at hd
  injection hd with h1 _
  exact absurd h1 (by decide)

lemma ne_placeName_of_head {s : String} (hs : s.data.head? ≠ some 'p')
    (i : Nat) : s ≠ placeName i := by
  intro h
  apply hs
  rw [h, placeName_data]
  rfl

/-- Position of the first occurrence of `a` in `l`; this models the index
that `enumerate` pairs with each element in step 7 of `discover`. -/
def posOf {α : Type} [DecidableEq α] (a : α) : List α → Nat
  | [] => 0
  | b :: l => if b = a then 0 else posOf a l + 1

lemma posOf_lt_length {α : Type} [DecidableEq α] {a : α} :
    ∀ {l : List α}, a ∈ l → posOf a l < l.length := by
  intro l
  induction l with
  | nil => intro h; cases h
  | cons b t ih =>
    intro h
    simp only [posOf, List.length_cons]
    split
    · omega
    · rename_i hb
      have ht : a ∈ t := by
        rcases List.mem_cons.mp h with rfl | ht
        · exact absurd rfl hb
        · exact ht
      have := ih ht
      omega

lemma getD_posOf {α : Type} [DecidableEq α] {a : α} (d : α) :
    ∀ {l : List α}, a ∈ l → l.getD (posOf a l) d = a := by
  intro l
  induction l with
  | nil => intro h; cases h
  | cons b t ih =>
    intro h
    simp only [posOf]
    split
    · rename_i hb
      rw [List.getD_cons_zero]
      exact hb
    · rename_i hb
      rw [List.getD_cons_succ]
      apply ih
      rcases List.mem_cons.mp h with rfl | ht
      · exact absurd rfl hb
      · exact ht

lemma posOf_getD {α : Type} [DecidableEq α] (d : α) :
    ∀ {l : List α}, l.Nodup → ∀ {i : Nat}, i < l.length →
      posOf (l.getD i d) l = i := by
  intro l
  induction l with
  | nil => intro _ i hi; simp at hi
  | cons b t ih =>
    intro hnd i hi
    obtain ⟨hb, hnt⟩ := List.nodup_cons.mp hnd
    cases i with
    | zero =>
      rw [List.getD_cons_zero]
      simp [posOf]
    | succ i =>
      rw [List.getD_cons_succ]
      have hilen : i < t.length := by
        simpa [List.length_cons] using hi
      have hmem : t.getD i d ∈ t := by
        rw [List.getD_eq_getElem t d hilen]
        exact List.getElem_mem hilen
      simp only [posOf]
      rw [if_neg (show ¬ b = t.getD i d from
        fun hbeq => hb (by rw [hbeq]; exact hmem))]
      rw [ih hnt hilen]

/-- All non-empty subsets of the alphabet, as a concrete list: the pool the
nested `itertools.combinations` loops of step 4 draw from. -/
def subsetsList (log : EventLog) : List (Finset String) :=
  ((alphabetList log).sublists.map List.toFinset).filter
    fun s => decide s.Nonempty

lemma mem_subsetsList {log : EventLog} {s : Finset String} :
    s ∈ subsetsList log ↔ s.Nonempty ∧ s ⊆ alphabet log := by
  unfold subsetsList
  simp only [List.mem_filter, List.mem_map, List.mem_sublists,
    decide_eq_true_eq]
  constructor
  · rintro ⟨⟨l, hl, rfl⟩, hne⟩
    refine ⟨hne, ?_⟩
    intro x hx
    rw [List.mem_toFinset] at hx
    rw [← alphabetList_toFinset, List.mem_toFinset]
    exact hl.subset hx
  · rintro ⟨hne, hsub⟩
    refine ⟨⟨(alphabetList log).filter fun a => decide (a ∈ s),
      List.filter_sublist _, ?_⟩, hne⟩
    apply Finset.ext
    intro x
    simp only [List.mem_toFinset, List.mem_filter, decide_eq_true_eq]
    exact ⟨fun hx => hx.2, fun hx => ⟨mem_alphabetList.mpr (hsub hx), hx⟩⟩

/-- The candidate set `X` as the deduplicated list a concrete enumeration
produces; its underlying set is `bigX`.  Python builds `X` as a set, so
only the collection of its elements is observable. -/
def listX (log : EventLog) : List (Finset String × Finset String) :=
  (((subsetsList log).flatMap fun A =>
      (subsetsList log).map fun B => (A, B)).filter
    fun q => decide (checkConditions log q.1 q.2)).dedup

lemma mem_listX {log : EventLog} {p : Finset String × Finset String} :
    p ∈ listX log ↔ p ∈ bigX log := by
  unfold listX
  rw [List.mem_dedup, List.mem_filter, mem_bigX]
  simp only [List.mem_flatMap, List.mem_map, decide_eq_true_eq]
  constructor
  · rintro ⟨⟨A, hA, B, hB, rfl⟩, hc⟩
    obtain ⟨hA1, hA2⟩ := mem_subsetsList.mp hA
    obtain ⟨hB1, hB2⟩ := mem_subsetsList.mp hB
    exact ⟨hA1, hB1, hA2, hB2, hc⟩
  · rintro ⟨h1, h2, hA, hB, hc⟩
    exact ⟨⟨p.1, mem_subsetsList.mpr ⟨h1, hA⟩,
      p.2, mem_subsetsList.mpr ⟨h2, hB⟩, rfl⟩, hc⟩

lemma listX_nodup (log : EventLog) : (listX log).Nodup :=
  List.nodup_dedup _

/-- The list of maximal pairs in the order a run enumerates them: the
embedding of the value `YL` that `enumerate` walks in step 7. -/
def enumY (log : EventLog) : List (Finset String × Finset String) :=
  (listX log).filter fun p =>
    decide (∀ q ∈ listX log, q ≠ p → ¬(p.1 ⊆ q.1 ∧ p.2 ⊆ q.2))

lemma enumY_nodup (log : EventLog) : (enumY log).Nodup :=
  (listX_nodup log).filter _

lemma mem_enumY {log : EventLog} {p : Finset String × Finset String} :
    p ∈ enumY log ↔ p ∈ YL log := by
  unfold enumY YL findMaximalPairs
  rw [List.mem_filter, Finset.mem_filter]
  simp only [decide_eq_true_eq]
  constructor
  · rintro ⟨hp, hmax⟩
    exact ⟨mem_listX.mp hp, fun q hq hne => hmax q (mem_listX.mpr hq) hne⟩
  · rintro ⟨hp, hmax⟩
    exact ⟨mem_listX.mpr hp, fun q hq hne => hmax q (mem_listX.mp hq) hne⟩

lemma enumY_toFinset (log : EventLog) : (enumY log).toFinset = YL log := by
  apply Finset.ext
  intro p
  rw [List.mem_toFinset, mem_enumY]

/-- Step 2 of `discover`: the set of first activities of the traces
(`set(trace[0] for trace in self.event_log)`); `trace[0]` raises an
`IndexError` on a zero-length trace, which `discover` models separately. -/
def TI (log : EventLog) : Finset String :=
  (log.filterMap List.head?).toFinset

/-- Step 3 of `discover`: the set of last activities of the traces
(`set(trace[-1] for trace in self.event_log)`). -/
def TO (log : EventLog) : Finset String :=
  (log.filterMap List.getLast?).toFinset

/-- The discovered net: places, transitions and arcs, as in the `PetriNet`
dataclass of the source. -/
structure PetriNet where
  places : Finset String
  transitions : Finset String
  arcs : Finset (String × String)
deriving DecidableEq

/-- The arcs step 7 adds for the pair `AB` sitting at the place named
`placeName i`: `a → p_i` for `a ∈ A` and `p_i → b` for `b ∈ B`. -/
def pairArcs (i : Nat) (AB : Finset String × Finset String) :
    Finset (String × String) :=
  (AB.1.image fun a => (a, placeName i)) ∪ (AB.2.image fun b => (placeName i, b))

/-- The arcs contributed by all internal places when the maximal pairs are
enumerated in the order `ord`. -/
def internalArcs (ord : List (Finset String × Finset String)) :
    Finset (String × String) :=
  (Finset.range ord.length).biUnion fun i => pairArcs i (ord.getD i (∅, ∅))

/-- Steps 6 to 8 of `discover`, parameterized by the enumeration order
`ord` of the maximal pairs.  Python iterates a set here, so the order is
arbitrary; every property below is proved for the relevant class of
orders. -/
def discoverWith (log : EventLog) (ord : List (Finset String × Finset String)) :
    PetriNet where
  places :=
    insert ("start") (insert ("end") ((Finset.range ord.length).image placeName))
  transitions := alphabet log
  arcs :=
    ((TI log).image fun t => ("start", t)) ∪
      ((TO log).image fun t => (t, "end")) ∪ internalArcs ord

/-- The one runtime failure `discover` can hit: the `IndexError` raised by
`trace[0]` (step 2) or `trace[-1]` (step 3) on a zero-length trace. -/
inductive PyErr : Type
  | indexError
deriving DecidableEq

/-- The full discovery pipeline of `AlphaAlgorithm.discover`: on a log with
a zero-length trace it raises `IndexError`; otherwise it returns the net
built from the maximal pairs.  No input validation of any other kind and no
enumeration ceiling exist in the source. -/
def discover (log : EventLog) : Except PyErr PetriNet :=
  if log.any List.isEmpty then Except.error PyErr.indexError
  else Except.ok (discoverWith log (enumY log))

/-- True when a discovery run returned a net rather than raising. -/
def isOk : Except PyErr PetriNet → Bool
  | Except.ok _ => true
  | Except.error _ => false

/-- The net of a successful run (a dummy empty net for a failed one). -/
def netOf : Except PyErr PetriNet → PetriNet
  | Except.ok n => n
  | Except.error _ => ⟨∅, ∅, ∅⟩

/-- The error of a failed run, if any. -/
def errOf : Except PyErr PetriNet → Option PyErr
  | Except.ok _ => none
  | Except.error e => some e

lemma discover_eq_ok {log : EventLog} (h : ∀ t ∈ log, t ≠ []) :
    discover log = Except.ok (discoverWith log (enumY log)) := by
  unfold discover
  rw [if_neg]
  simp only [List.any_eq_true, not_exists, not_and]
  intro t ht hemp
  exact h t ht (List.isEmpty_iff.mp hemp)

/-- The place name a discovery run assigns to the maximal pair `p`: the
name carrying the position of `p` in the run enumeration order. -/
def placeOf (log : EventLog) (p : Finset String × Finset String) : String :=
  placeName (posOf p (enumY log))

lemma range_image_placeName (ord : List (Finset String × Finset String))
    (hnd : ord.Nodup) :
    (Finset.range ord.length).image placeName =
      ord.toFinset.image fun p => placeName (posOf p ord) := by
  apply Finset.ext
  intro s
  simp only [Finset.mem_image, Finset.mem_range, List.mem_toFinset]
  constructor
  · rintro ⟨i, hi, rfl⟩
    refine ⟨ord.getD i (∅, ∅), ?_, ?_⟩
    · rw [List.getD_eq_getElem _ _ hi]
      exact List.getElem_mem hi
    · rw [posOf_getD _ hnd hi]
  · rintro ⟨p, hp, rfl⟩
    exact ⟨posOf p ord, posOf_lt_length hp, rfl⟩

lemma internalArcs_eq_biUnion (ord : List (Finset String × Finset String))
    (hnd : ord.Nodup) :
    internalArcs ord =
      ord.toFinset.biUnion fun p => pairArcs (posOf p ord) p := by
  apply Finset.ext
  intro x
  simp only [internalArcs, Finset.mem_biUnion, Finset.mem_range,
    List.mem_toFinset]
  constructor
  · rintro ⟨i, hi, hx⟩
    refine ⟨ord.getD i (∅, ∅), ?_, ?_⟩
    · rw [List.getD_eq_getElem _ _ hi]
      exact List.getElem_mem hi
    · rw [posOf_getD _ hnd hi]
      exact hx
  · rintro ⟨p, hp, hx⟩
    refine ⟨posOf p ord, posOf_lt_length hp, ?_⟩
    rw [getD_posOf _ hp]
    exact hx

lemma YL_subset_bigX (log : EventLog) : YL log ⊆ bigX log :=
  Finset.filter_subset _ _

lemma mem_YL_alphabet {log : EventLog} {p : Finset String × Finset String}
    (hp : p ∈ YL log) : p.1 ⊆ alphabet log ∧ p.2 ⊆ alphabet log := by
  obtain ⟨-, -, h1, h2, -⟩ := mem_bigX.mp (YL_subset_bigX log hp)
  exact ⟨h1, h2⟩

/-- Claim C4: on a valid log, `discover` succeeds and returns the net whose
transitions are the full alphabet, whose places are `start`, `end` plus one
place per maximal pair (the place assignment is injective and avoids the
two boundary names), and whose arcs are exactly `start → t` for the first
activities, `t → end` for the last activities, and `a → p`, `p → b` for
each maximal pair `(A, B)` at its place `p`. -/
theorem discover_net_structure (log : EventLog) (hne : ∀ t ∈ log, t ≠ []) :
    isOk (discover log) = true ∧
    (netOf (discover log)).transitions = alphabet log ∧
    (netOf (discover log)).places =
      insert ("start") (insert ("end") ((YL log).image (placeOf log))) ∧
    (∀ p ∈ YL log, ∀ q ∈ YL log, placeOf log p = placeOf log q → p = q) ∧
    (∀ p ∈ YL log, placeOf log p ≠ "start" ∧ placeOf log p ≠ "end") ∧
    (netOf (discover log)).arcs =
      ((TI log).image fun t => ("start", t)) ∪
        ((TO log).image fun t => (t, "end")) ∪
        ((YL log).biUnion fun p =>
          (p.1.image fun a => (a, placeOf log p)) ∪
            (p.2.image fun b => (placeOf log p, b))) := by
  rw [discover_eq_ok hne]
  refine ⟨rfl, rfl, ?_, ?_, ?_, ?_⟩
  · show insert ("start") (insert ("end")
        ((Finset.range (enumY log).length).image placeName)) = _
    rw [range_image_placeName _ (enumY_nodup log), enumY_toFinset]
    rfl
  · intro p hp q hq h
    have hpos : posOf p (enumY log) = posOf q (enumY log) :=
      placeName_injective h
    have hp' : p ∈ enumY log := mem_enumY.mpr hp
    have hq' : q ∈ enumY log := mem_enumY.mpr hq
    calc p = (enumY log).getD (posOf p (enumY log)) (∅, ∅) :=
        (getD_posOf _ hp').symm
      _ = (enumY log).getD (posOf q (enumY log)) (∅, ∅) := by rw [hpos]
      _ = q := getD_posOf _ hq'
  · intro p _
    exact ⟨placeName_ne_start _, placeName_ne_end _⟩
  · show ((TI log).image fun t => ("start", t)) ∪
        ((TO log).image fun t => (t, "end")) ∪ internalArcs (enumY log) = _
    rw [internalArcs_eq_biUnion _ (enumY_nodup log), enumY_toFinset]
    rfl

/-- Witness for claim C4 at the concrete log `[["a", "b"]]`. -/
theorem discover_net_structure_witness :
    isOk (discover [["a", "b"]]) = true ∧
    (netOf (discover [["a", "b"]])).transitions = alphabet [["a", "b"]] ∧
    (netOf (discover [["a", "b"]])).places =
      insert ("start") (insert ("end")
        ((YL [["a", "b"]]).image (placeOf [["a", "b"]]))) ∧
    (∀ p ∈ YL [["a", "b"]], ∀ q ∈ YL [["a", "b"]],
      placeOf [["a", "b"]] p = placeOf [["a", "b"]] q → p = q) ∧
    (∀ p ∈ YL [["a", "b"]],
      placeOf [["a", "b"]] p ≠ "start" ∧ placeOf [["a", "b"]] p ≠ "end") ∧
    (netOf (discover [["a", "b"]])).arcs =
      ((TI [["a", "b"]]).image fun t => ("start", t)) ∪
        ((TO [["a", "b"]]).image fun t => (t, "end")) ∪
        ((YL [["a", "b"]]).biUnion fun p =>
          (p.1.image fun a => (a, placeOf [["a", "b"]] p)) ∪
            (p.2.image fun b => (placeOf [["a", "b"]] p, b))) :=
  discover_net_structure [["a", "b"]] (by decide)

/-- Claim C5 (amended): `discover` accepts no configuration and enforces no
enumeration ceiling: on every log whose traces are all non-empty it goes
straight into the full enumeration and returns a net, whatever the alphabet
size. -/
theorem discover_has_no_budget_guard (log : EventLog)
    (hne : ∀ t ∈ log, t ≠ []) :
    isOk (discover log) = true ∧ errOf (discover log) = none := by
  rw [discover_eq_ok hne]
  exact ⟨rfl, rfl⟩

/-- Witness for claim C5 (amended) at the concrete log `[["a", "b"]]`. -/
theorem discover_has_no_budget_guard_witness :
    isOk (discover [["a", "b"]]) = true ∧
      errOf (discover [["a", "b"]]) = none :=
  discover_has_no_budget_guard [["a", "b"]] (by decide)

/-- Counterexample to claim C5 as stated: the log `[["a", "b"]]` has
alphabet size 2, so the enumeration estimate `2^2 * 2^2 = 16` exceeds a
configured ceiling of 10; the claimed behaviour would be to raise
`ComplexityBudgetExceeded` before enumerating, but `discover` accepts no
ceiling at all and returns a net with no error. -/
theorem discover_no_budget_cex :
    (alphabet [["a", "b"]]).card = 2 ∧ 2 ^ 2 * 2 ^ 2 > 10 ∧
      isOk (discover [["a", "b"]]) = true ∧
      errOf (discover [["a", "b"]]) = none := by
  exact ⟨by decide, by decide, by decide, by decide⟩

/-- Claim C6 (amended): the core performs no input validation and no
`InvalidInputError` exists.  An empty log is accepted and yields the
trivial net with only the two boundary places; a zero-length trace raises
the generic `IndexError` (from `trace[0]` in `discover`, after the
footprint matrix was already built in the constructor), not a dedicated
input error; a blank activity token is accepted as an ordinary activity. -/
theorem discover_no_input_validation :
    isOk (discover []) = true ∧
    netOf (discover []) = ⟨insert ("start") (insert ("end") ∅), ∅, ∅⟩ ∧
    errOf (discover [[]]) = some PyErr.indexError ∧
    isOk (discover [[""]]) = true ∧
    "" ∈ (netOf (discover [[""]])).transitions := by
  exact ⟨by decide, by decide, by decide, by decide, by decide⟩

/-- Counterexample to claim C6 as stated: on the empty log `discover`
raises nothing at all and returns the trivial net, instead of raising
`InvalidInputError` before any computation. -/
theorem discover_empty_log_ok_cex :
    isOk (discover []) = true ∧ errOf (discover []) = none ∧
      (netOf (discover [])).places = insert ("start") (insert ("end") ∅) := by
  exact ⟨by decide, by decide, by decide⟩

lemma mem_of_getLast? {α : Type} :
    ∀ {l : List α} {a : α}, l.getLast? = some a → a ∈ l := by
  intro l
  induction l with
  | nil => intro a h; simp at h
  | cons b t ih =>
    intro a h
    cases t with
    | nil =>
      rw [List.getLast?_singleton] at h
      rw [Option.some.injEq] at h
      rw [← h]
      exact List.mem_singleton_self b
    | cons c t2 =>
      rw [List.getLast?_cons_cons] at h
      exact List.mem_cons_of_mem _ (ih h)

lemma TI_subset_alphabet (log : EventLog) : TI log ⊆ alphabet log := by
  intro t ht
  unfold TI at ht
  rw [List.mem_toFinset] at ht
  obtain ⟨tr, htr, hh⟩ := List.mem_filterMap.mp ht
  unfold alphabet
  rw [List.mem_toFinset, List.mem_flatten]
  refine ⟨tr, htr, ?_⟩
  cases tr with
  | nil => simp at hh
  | cons b l =>
    rw [List.head?_cons, Option.some.injEq] at hh
    rw [← hh]
    exact List.mem_cons_self b l

lemma TO_subset_alphabet (log : EventLog) : TO log ⊆ alphabet log := by
  intro t ht
  unfold TO at ht
  rw [List.mem_toFinset] at ht
  obtain ⟨tr, htr, hh⟩ := List.mem_filterMap.mp ht
  unfold alphabet
  rw [List.mem_toFinset, List.mem_flatten]
  exact ⟨tr, htr, mem_of_getLast? hh⟩

/-- The no-collision hygiene condition: no activity of the log is named
like one of the reserved place names `start`, `end`, `p_<i>`. -/
def NoNameCollision (log : EventLog) : Prop :=
  ∀ a ∈ alphabet log, a ≠ "start" ∧ a ≠ "end" ∧ ∀ i : Nat, a ≠ placeName i

lemma alphabet_not_place {log : EventLog}
    (hcol : NoNameCollision log) (ord : List (Finset String × Finset String)) :
    ∀ a ∈ alphabet log, a ∉ (discoverWith log ord).places := by
  intro a ha hmem
  rcases Finset.mem_insert.mp hmem with h | hmem
  · exact (hcol a ha).1 h
  rcases Finset.mem_insert.mp hmem with h | hmem
  · exact (hcol a ha).2.1 h
  obtain ⟨i, -, hf⟩ := Finset.mem_image.mp hmem
  exact (hcol a ha).2.2 i hf.symm

set_option maxHeartbeats 2000000 in
/-- Claim C9 (amended): provided no activity identifier collides with the
reserved place names, the discovered net is bipartite: no arc of the
returned arc set connects two places or two transitions.  (With a collision
the property fails, see the counterexample.) -/
theorem discover_bipartite_no_collision (log : EventLog)
    (hne : ∀ t ∈ log, t ≠ []) (hcol : NoNameCollision log) :
    ∀ x y, (x, y) ∈ (netOf (discover log)).arcs →
      ¬(x ∈ (netOf (discover log)).places ∧
          y ∈ (netOf (discover log)).places) ∧
      ¬(x ∈ (netOf (discover log)).transitions ∧
          y ∈ (netOf (discover log)).transitions) := by
  rw [discover_eq_ok hne]
  intro x y hxy
  have hTnotP : ∀ a ∈ alphabet log,
      a ∉ (discoverWith log (enumY log)).places :=
    alphabet_not_place hcol _
  have hPnotT : ∀ s ∈ (discoverWith log (enumY log)).places,
      s ∉ alphabet log :=
    fun s hs hT => hTnotP s hT hs
  have hstartP : ("start") ∈ (discoverWith log (enumY log)).places :=
    Finset.mem_insert_self _ _
  have hendP : ("end") ∈ (discoverWith log (enumY log)).places :=
    Finset.mem_insert_of_mem (Finset.mem_insert_self _ _)
  have hplaceP : ∀ i < (enumY log).length,
      placeName i ∈ (discoverWith log (enumY log)).places := by
    intro i hi
    apply Finset.mem_insert_of_mem
    apply Finset.mem_insert_of_mem
    exact Finset.mem_image.mpr ⟨i, Finset.mem_range.mpr hi, rfl⟩
  have harc : (x, y) ∈
      ((TI log).image fun t => ("start", t)) ∪
        ((TO log).image fun t => (t, "end")) ∪ internalArcs (enumY log) := hxy
  rcases Finset.mem_union.mp harc with hb | hint
  · rcases Finset.mem_union.mp hb with hti | hto
    · obtain ⟨t, ht, heq⟩ := Finset.mem_image.mp hti
      injection heq with h1 h2
      subst h1
      subst h2
      constructor
      · rintro ⟨-, hyP⟩
        exact hPnotT t hyP (TI_subset_alphabet log ht)
      · rintro ⟨hxT, -⟩
        exact hTnotP _ hxT hstartP
    · obtain ⟨t, ht, heq⟩ := Finset.mem_image.mp hto
      injection heq with h1 h2
      subst h1
      subst h2
      constructor
      · rintro ⟨hxP, -⟩
        exact hPnotT t hxP (TO_subset_alphabet log ht)
      · rintro ⟨-, hyT⟩
        exact hTnotP _ hyT hendP
  · obtain ⟨i, hi, hpa⟩ := Finset.mem_biUnion.mp hint
    rw [Finset.mem_range] at hi
    have hp : (enumY log).getD i (∅, ∅) ∈ enumY log := by
      rw [List.getD_eq_getElem _ _ hi]
      exact List.getElem_mem hi
    have hYLp := mem_enumY.mp hp
    rcases Finset.mem_union.mp hpa with hL | hR
    · obtain ⟨a, ha, heq⟩ := Finset.mem_image.mp hL
      injection heq with h1 h2
      subst h1
      subst h2
      have haA : a ∈ alphabet log := (mem_YL_alphabet hYLp).1 ha
      constructor
      · rintro ⟨hxP, -⟩
        exact hTnotP a haA hxP
      · rintro ⟨-, hyT⟩
        exact hPnotT _ (hplaceP i hi) hyT
    · obtain ⟨b, hbm, heq⟩ := Finset.mem_image.mp hR
      injection heq with h1 h2
      subst h1
      subst h2
      have hbA : b ∈ alphabet log := (mem_YL_alphabet hYLp).2 hbm
      constructor
      · rintro ⟨-, hyP⟩
        exact hTnotP b hbA hyP
      · rintro ⟨hxT, -⟩
        exact hPnotT _ (hplaceP i hi) hxT

/-- The renaming between the internal place names of two enumeration
orders: the name at position `i` of the first order is sent to the name of
the position the same pair occupies in the second order; any other string
is left alone. -/
def renameFn (ord1 ord2 : List (Finset String × Finset String))
    (s : String) : String :=
  if s ∈ (List.range ord1.length).map placeName then
    placeName (posOf (ord1.getD (posOf s ((List.range ord1.length).map placeName))
      (∅, ∅)) ord2)
  else s

lemma renameFn_eq_self (ord1 ord2 : List (Finset String × Finset String))
    {s : String} (hs : s ∉ (List.range ord1.length).map placeName) :
    renameFn ord1 ord2 s = s := by
  unfold renameFn
  rw [if_neg hs]

lemma names_nodup (n : Nat) : ((List.range n).map placeName).Nodup :=
  List.Nodup.map placeName_injective (List.nodup_range n)

lemma names_getD {n i : Nat} (hi : i < n) :
    ((List.range n).map placeName).getD i ("") = placeName i := by
  have hlen : i < ((List.range n).map placeName).length := by
    rw [List.length_map, List.length_range]
    exact hi
  rw [List.getD_eq_getElem _ _ hlen, List.getElem_map, List.getElem_range]

lemma posOf_placeName_names {n i : Nat} (hi : i < n) :
    posOf (placeName i) ((List.range n).map placeName) = i := by
  have hlen : i < ((List.range n).map placeName).length := by
    rw [List.length_map, List.length_range]
    exact hi
  have h := posOf_getD ("") (names_nodup n) hlen
  rw [names_getD hi] at h
  exact h

lemma renameFn_placeName (ord1 ord2 : List (Finset String × Finset String))
    {i : Nat} (hi : i < ord1.length) :
    renameFn ord1 ord2 (placeName i) =
      placeName (posOf (ord1.getD i (∅, ∅)) ord2) := by
  unfold renameFn
  rw [if_pos (List.mem_map.mpr ⟨i, List.mem_range.mpr hi, rfl⟩)]
  rw [posOf_placeName_names hi]

lemma start_not_names (n : Nat) :
    ("start") ∉ (List.range n).map placeName := by
  intro hmem
  obtain ⟨i, -, hf⟩ := List.mem_map.mp hmem
  exact placeName_ne_start i hf

lemma end_not_names (n : Nat) :
    ("end") ∉ (List.range n).map placeName := by
  intro hmem
  obtain ⟨i, -, hf⟩ := List.mem_map.mp hmem
  exact placeName_ne_end i hf

set_option maxHeartbeats 2000000 in
/-- Claim C7 (amended): two discovery runs over the same log that enumerate
the same set of maximal pairs in two arbitrary orders produce nets that are
identical up to a renaming of the internal places: equal transitions, and a
map `g` fixing `start`, `end` and every activity (assuming no activity is
named like a reserved place name) that carries the places and arcs of the
first run onto those of the second.  The identity of each internal place,
however, is its enumeration position `p_<i>`, not a function of the pair
content — see the counterexample. -/
theorem discover_identical_up_to_place_renaming (log : EventLog)
    (ord1 ord2 : List (Finset String × Finset String))
    (h1 : ord1.Nodup) (h2 : ord2.Nodup)
    (hy1 : ord1.toFinset = YL log) (hy2 : ord2.toFinset = YL log)
    (hcol : NoNameCollision log) :
    ∃ g : String → String,
      g ("start") = "start" ∧ g ("end") = "end" ∧
      (∀ a ∈ alphabet log, g a = a) ∧
      (discoverWith log ord2).transitions =
        (discoverWith log ord1).transitions ∧
      (discoverWith log ord2).places =
        (discoverWith log ord1).places.image g ∧
      (discoverWith log ord2).arcs =
        (discoverWith log ord1).arcs.image
          fun ar => (g ar.1, g ar.2) := by
  have hmemiff : ∀ p : Finset String × Finset String, p ∈ ord1 ↔ p ∈ ord2 := by
    intro p
    rw [← List.mem_toFinset, ← List.mem_toFinset (l := ord2), hy1, hy2]
  have hgstart : renameFn ord1 ord2 ("start") = "start" :=
    renameFn_eq_self ord1 ord2 (start_not_names _)
  have hgend : renameFn ord1 ord2 ("end") = "end" :=
    renameFn_eq_self ord1 ord2 (end_not_names _)
  have hgact : ∀ a ∈ alphabet log, renameFn ord1 ord2 a = a := by
    intro a ha
    apply renameFn_eq_self
    intro hmem
    obtain ⟨i, -, hf⟩ := List.mem_map.mp hmem
    exact (hcol a ha).2.2 i hf.symm
  have hgp : ∀ {p : Finset String × Finset String}, p ∈ ord1 →
      renameFn ord1 ord2 (placeName (posOf p ord1)) =
        placeName (posOf p ord2) := by
    intro p hp
    rw [renameFn_placeName ord1 ord2 (posOf_lt_length hp), getD_posOf _ hp]
  refine ⟨renameFn ord1 ord2, hgstart, hgend, hgact, rfl, ?_, ?_⟩
  · show insert ("start") (insert ("end")
        ((Finset.range ord2.length).image placeName)) =
      (insert ("start") (insert ("end")
        ((Finset.range ord1.length).image placeName))).image
        (renameFn ord1 ord2)
    have hkey : (Finset.range ord2.length).image placeName =
        ((Finset.range ord1.length).image placeName).image
          (renameFn ord1 ord2) := by
      rw [Finset.image_image]
      apply Finset.ext
      intro s
      simp only [Finset.mem_image, Finset.mem_range, Function.comp_apply]
      constructor
      · rintro ⟨j, hj, rfl⟩
        have hp2 : ord2.getD j (∅, ∅) ∈ ord2 := by
          rw [List.getD_eq_getElem _ _ hj]
          exact List.getElem_mem hj
        have hp1 : ord2.getD j (∅, ∅) ∈ ord1 := (hmemiff _).mpr hp2
        refine ⟨posOf (ord2.getD j (∅, ∅)) ord1, posOf_lt_length hp1, ?_⟩
        rw [hgp hp1, posOf_getD _ h2 hj]
      · rintro ⟨i, hi, rfl⟩
        have hp1 : ord1.getD i (∅, ∅) ∈ ord1 := by
          rw [List.getD_eq_getElem _ _ hi]
          exact List.getElem_mem hi
        have hp2 : ord1.getD i (∅, ∅) ∈ ord2 := (hmemiff _).mp hp1
        refine ⟨posOf (ord1.getD i (∅, ∅)) ord2, posOf_lt_length hp2, ?_⟩
        rw [renameFn_placeName ord1 ord2 hi]
    rw [Finset.image_insert, Finset.image_insert, hgstart, hgend, hkey]
  · show ((TI log).image fun t => (("start"), t)) ∪
        ((TO log).image fun t => (t, ("end"))) ∪ internalArcs ord2 =
      (((TI log).image fun t => (("start"), t)) ∪
          ((TO log).image fun t => (t, ("end"))) ∪ internalArcs ord1).image
        fun ar => (renameFn ord1 ord2 ar.1, renameFn ord1 ord2 ar.2)
    have hTIeq : ((TI log).image fun t => (("start"), t)).image
        (fun ar => (renameFn ord1 ord2 ar.1, renameFn ord1 ord2 ar.2)) =
        (TI log).image fun t => (("start"), t) := by
      rw [Finset.image_image]
      apply Finset.image_congr
      intro t ht
      simp only [Function.comp_apply]
      rw [hgstart, hgact t (TI_subset_alphabet log ht)]
    have hTOeq : ((TO log).image fun t => (t, ("end"))).image
        (fun ar => (renameFn ord1 ord2 ar.1, renameFn ord1 ord2 ar.2)) =
        (TO log).image fun t => (t, ("end")) := by
      rw [Finset.image_image]
      apply Finset.image_congr
      intro t ht
      simp only [Function.comp_apply]
      rw [hgend, hgact t (TO_subset_alphabet log ht)]
    have hInt : (internalArcs ord1).image
        (fun ar => (renameFn ord1 ord2 ar.1, renameFn ord1 ord2 ar.2)) =
        internalArcs ord2 := by
      rw [internalArcs_eq_biUnion ord1 h1, internalArcs_eq_biUnion ord2 h2,
        hy1, hy2, Finset.biUnion_image]
      apply Finset.biUnion_congr rfl
      intro p hp
      have hp1 : p ∈ ord1 := by
        rw [← List.mem_toFinset, hy1]
        exact hp
      have hpY : p ∈ YL log := hp
      unfold pairArcs
      rw [Finset.image_union, Finset.image_image, Finset.image_image]
      have hgpp := hgp hp1
      congr 1
      · apply Finset.image_congr
        intro a ha
        simp only [Function.comp_apply]
        rw [hgact a ((mem_YL_alphabet hpY).1 ha), hgpp]
      · apply Finset.image_congr
        intro b hb
        simp only [Function.comp_apply]
        rw [hgact b ((mem_YL_alphabet hpY).2 hb), hgpp]
    rw [Finset.image_union, Finset.image_union, hTIeq, hTOeq, hInt]

lemma noCollision_ab : NoNameCollision [["a", "b"]] := by
  intro a ha
  have hab : a = "a" ∨ a = "b" := by
    have h1 : alphabet [["a", "b"]] = {"a", "b"} := by decide
    rw [h1] at ha
    rcases Finset.mem_insert.mp ha with h | h
    · exact Or.inl h
    · exact Or.inr (Finset.mem_singleton.mp h)
  rcases hab with rfl | rfl
  · exact ⟨by decide, by decide, fun i => ne_placeName_of_head (by decide) i⟩
  · exact ⟨by decide, by decide, fun i => ne_placeName_of_head (by decide) i⟩

/-- Witness for claim C9 (amended): in the net of `[["a", "b"]]`, the arc
`(start, a)` connects neither two places nor two transitions. -/
theorem discover_bipartite_no_collision_witness :
    ¬(("start") ∈ (netOf (discover [["a", "b"]])).places ∧
        ("a") ∈ (netOf (discover [["a", "b"]])).places) ∧
    ¬(("start") ∈ (netOf (discover [["a", "b"]])).transitions ∧
        ("a") ∈ (netOf (discover [["a", "b"]])).transitions) :=
  discover_bipartite_no_collision [["a", "b"]] (by decide) noCollision_ab
    ("start") ("a") (by decide)

/-- Counterexample to claim C9 as stated: with activities named like the
reserved place names, e.g. the log `[["start", "end"]]`, the returned net
contains the arc `(start, start)` whose endpoints both lie in the place set
(and also both lie in the transition set), so under name collisions an arc
can connect two places. -/
theorem discover_bipartite_cex :
    ("start", "start") ∈ (netOf (discover [["start", "end"]])).arcs ∧
      ("start") ∈ (netOf (discover [["start", "end"]])).places ∧
      ("start") ∈ (netOf (discover [["start", "end"]])).transitions := by
  exact ⟨by decide, by decide, by decide⟩

/-- The classic XOR log of the specification: two maximal pairs. -/
def logXor : EventLog := [["a", "b", "d"], ["a", "c", "d"]]

/-- First maximal pair of `logXor`. -/
def pairA : Finset String × Finset String := ({"a"}, {"b", "c"})

/-- Second maximal pair of `logXor`. -/
def pairD : Finset String × Finset String := ({"b", "c"}, {"d"})

/-- Witness for claim C7 (amended) at the log `[["a", "b"]]` with its
single maximal pair enumerated identically in both runs. -/
theorem discover_identical_up_to_place_renaming_witness :
    ∃ g : String → String,
      g ("start") = "start" ∧ g ("end") = "end" ∧
      (∀ a ∈ alphabet [["a", "b"]], g a = a) ∧
      (discoverWith [["a", "b"]] [({"a"}, {"b"})]).transitions =
        (discoverWith [["a", "b"]] [({"a"}, {"b"})]).transitions ∧
      (discoverWith [["a", "b"]] [({"a"}, {"b"})]).places =
        (discoverWith [["a", "b"]] [({"a"}, {"b"})]).places.image g ∧
      (discoverWith [["a", "b"]] [({"a"}, {"b"})]).arcs =
        (discoverWith [["a", "b"]] [({"a"}, {"b"})]).arcs.image
          fun ar => (g ar.1, g ar.2) :=
  discover_identical_up_to_place_renaming [["a", "b"]]
    [({"a"}, {"b"})] [({"a"}, {"b"})] (by decide) (by decide)
    (by decide) (by decide) noCollision_ab

set_option maxHeartbeats 2000000 in
/-- Counterexample to claim C7 as stated: the XOR log has the two maximal
pairs `({a}, {b,c})` and `({b,c}, {d})`; both lists below are valid
enumerations of its maximal-pair set, yet the two runs give different raw
nets — the pair `({a}, {b,c})` is the place `p_0` in one run and not in the
other, so place identity is the enumeration position, not a function of the
pair content. -/
theorem discover_order_dependent_cex :
    [pairA, pairD].Nodup ∧ [pairA, pairD].toFinset = YL logXor ∧
    [pairD, pairA].Nodup ∧ [pairD, pairA].toFinset = YL logXor ∧
    ("a", placeName 0) ∈ (discoverWith logXor [pairA, pairD]).arcs ∧
    ("a", placeName 0) ∉ (discoverWith logXor [pairD, pairA]).arcs := by
  exact ⟨by decide, by decide, by decide, by decide, by decide, by decide⟩

end AlphaMiner
